import Mathlib

/-!
Verification of the Interchain Security provider core: key assignment (KA)
and consumer-initiated slashing with throttling (CIS).

The repository files at hand contain the module wiring and the test suites
for `AssignConsumerKey`, `PruneKeyAssignments`, the consumer-address prune
buckets, `OnRecvSlashPacket` and the slash-meter operations, while the
keeper bodies themselves are not among the provided sources.  Every
definition below whose doc comment starts with `Modelled from the spec:`
is therefore a model of the missing keeper code, faithful to the
specification text (data model and component design for KA, CIS and the
valset replicator).

Addresses and keys are identified with natural numbers.  The consensus-key
hash deriving a 20-byte address from a public key is an abstract function
carried by the environment; the spec's cryptographic binding CA to CK is
the assumption that this function is injective, stated as a hypothesis
where a theorem relies on it.
-/

/-- Association-list lookup on `Nat` keys (first entry wins, like a KV
store read). -/
def alookup {α : Type} : List (Nat × α) → Nat → Option α
  | [], _ => none
  | e :: rest, k => if e.1 = k then some e.2 else alookup rest k

/-- Association-list write: replace the first entry with the given key, or
append a fresh entry. -/
def aset {α : Type} : List (Nat × α) → Nat → α → List (Nat × α)
  | [], k, v => [(k, v)]
  | e :: rest, k, v => if e.1 = k then (k, v) :: rest else e :: aset rest k v

/-- Association-list delete of every entry with the given key. -/
def aremove {α : Type} (l : List (Nat × α)) (k : Nat) : List (Nat × α) :=
  l.filter (fun e => decide (e.1 ≠ k))

/-- Concatenation of a list of lists. -/
def catLists : List (List Nat) → List Nat
  | [] => []
  | xs :: rest => xs ++ catLists rest

/-- Lifecycle phase of a consumer chain.  Key assignment is permitted in
the initialized and launched phases only. -/
inductive ConsumerPhase : Type
  | registered
  | initd
  | launched
  | stopped
deriving DecidableEq

/-- A provider validator: operator address and provider consensus key.
Its provider consensus address (PA) is the hash of its key. -/
structure Validator : Type where
  opAddr : Nat
  key : Nat
deriving DecidableEq

/-- Environment of the key-assignment logic: the consensus-key hash, the
active validator set of the external staking collaborator, and the
unbonding time. -/
structure KAEnv : Type where
  hash : Nat → Nat
  activeVals : List Validator
  unbondingTime : Nat

/-- Provider consensus address of a validator. -/
def Validator.pa (env : KAEnv) (v : Validator) : Nat := env.hash v.key

/-- Key-assignment state of one consumer chain: its phase, the current
assignments `assigned[PA] = CK`, the reverse lookup `byConsAddr[CA] = PA`,
and the pending prune buckets `toPrune[t] = list of CA`. -/
structure KAState : Type where
  phase : ConsumerPhase
  assigned : List (Nat × Nat)
  byConsAddr : List (Nat × Nat)
  toPrune : List (Nat × List Nat)
deriving DecidableEq

/-- Fresh key-assignment state for a consumer in the given phase. -/
def kaInit (phase : ConsumerPhase) : KAState :=
  { phase := phase, assigned := [], byConsAddr := [], toPrune := [] }

/-- Typed errors of `AssignConsumerKey`. -/
inductive KAError : Type
  | phaseInvalid
  | alreadyTaken
  | collidesWithActiveValidator
  | defaultNotReassignable
deriving DecidableEq

/-- Modelled from the spec: key assignment is permitted in the initialized
and launched phases only. -/
def phaseOk : ConsumerPhase → Bool
  | .initd => true
  | .launched => true
  | _ => false

/-- Modelled from the spec: the staking collaborator's consensus-address
lookup, searching the active validator set for the given consensus
address. -/
def getValidatorByConsAddr (env : KAEnv) (ca : Nat) : Option Validator :=
  env.activeVals.find? (fun w => decide (env.hash w.key = ca))

/-- Modelled from the spec: the AlreadyTaken test of `AssignConsumerKey` —
the derived consumer address is already reverse-mapped to a different
provider address. -/
def caTakenByOther (env : KAEnv) (st : KAState) (v : Validator) (newCK : Nat) : Bool :=
  match alookup st.byConsAddr (env.hash newCK) with
  | some pa => decide (pa ≠ v.pa env)
  | none => false

/-- Modelled from the spec: the CollidesWithActiveValidator test of
`AssignConsumerKey` — the new key is the provider key of some other active
validator, detected through the staking collaborator's consensus-address
lookup returning a validator with a different operator. -/
def ckCollides (env : KAEnv) (v : Validator) (newCK : Nat) : Bool :=
  match getValidatorByConsAddr env (env.hash newCK) with
  | some w => decide (w.opAddr ≠ v.opAddr)
  | none => false

/-- Modelled from the spec: the DefaultNotReassignable test of
`AssignConsumerKey` — the new key is the validator's own provider key and
the validator has no prior assignment on this consumer. -/
def defaultNotReassignable (env : KAEnv) (st : KAState) (v : Validator) (newCK : Nat) : Bool :=
  decide (newCK = v.key) && decide (alookup st.assigned (v.pa env) = none)

/-- Modelled from the spec: append a consumer address to the prune bucket
of the given timestamp (`AppendConsumerAddrsToPrune`). -/
def appendPrune (l : List (Nat × List Nat)) (t : Nat) (ca : Nat) : List (Nat × List Nat) :=
  aset l t ((alookup l t).getD [] ++ [ca])

/-- Modelled from the spec: the state updates of a successful
`AssignConsumerKey` — record the new assignment, populate the reverse
lookup, and if an old assignment existed schedule its consumer address for
pruning after the unbonding window. -/
def applyAssign (env : KAEnv) (st : KAState) (v : Validator) (newCK : Nat) (now : Nat) :
    KAState :=
  let base : KAState :=
    { st with
      assigned := aset st.assigned (v.pa env) newCK
      byConsAddr := aset st.byConsAddr (env.hash newCK) (v.pa env) }
  match alookup st.assigned (v.pa env) with
  | none => base
  | some oldCK =>
      { base with toPrune := appendPrune base.toPrune (now + env.unbondingTime) (env.hash oldCK) }

/-- Modelled from the spec: `AssignConsumerKey` — validate the request
against the phase, uniqueness and self-use rules, then apply the updates;
every error leaves the state unchanged. -/
def assignConsumerKey (env : KAEnv) (st : KAState) (v : Validator) (newCK : Nat) (now : Nat) :
    Except KAError KAState :=
  if !phaseOk st.phase then .error .phaseInvalid
  else if caTakenByOther env st v newCK then .error .alreadyTaken
  else if ckCollides env v newCK then .error .collidesWithActiveValidator
  else if defaultNotReassignable env st v newCK then .error .defaultNotReassignable
  else .ok (applyAssign env st v newCK now)

/-- Modelled from the spec: `GetProviderAddrFromConsumerAddr` — consult the
reverse lookup, defaulting to the consumer address itself. -/
def getProviderAddrFromConsumerAddr (st : KAState) (ca : Nat) : Nat :=
  (alookup st.byConsAddr ca).getD ca

/-- Modelled from the spec: `ResolveConsumerKey` — the current assignment
of the validator, defaulting to its own provider key. -/
def resolveConsumerKey (env : KAEnv) (st : KAState) (v : Validator) : Nat :=
  (alookup st.assigned (v.pa env)).getD v.key

/-- Consumer address of a provider validator: the hash of its resolved
consumer key. -/
def caOf (env : KAEnv) (st : KAState) (v : Validator) : Nat :=
  env.hash (resolveConsumerKey env st v)

/-- Consumer addresses listed in prune buckets that are due at the given
time. -/
def dueCAs (st : KAState) (now : Nat) : List Nat :=
  catLists ((st.toPrune.filter (fun b => decide (b.1 ≤ now))).map Prod.snd)

/-- Whether the consumer address is derived from the current assignment of
some provider address. -/
def isCurrentCA (env : KAEnv) (st : KAState) (ca : Nat) : Bool :=
  st.assigned.any (fun e => decide (env.hash e.2 = ca))

/-- Modelled from the spec: `PruneKeyAssignments` — for every bucket due at
the current time, delete its listed consumer addresses from the reverse
lookup unless they are again the current assignment of some provider
address, then delete the bucket. -/
def pruneKeyAssignments (env : KAEnv) (st : KAState) (now : Nat) : KAState :=
  { st with
    byConsAddr := st.byConsAddr.filter
      (fun e => decide (e.1 ∉ dueCAs st now) || isCurrentCA env st e.1)
    toPrune := st.toPrune.filter (fun b => decide (now < b.1)) }

/-- Modelled from the spec: `GetConsumerAddrsToPrune` — the address list of
the prune bucket at the given timestamp (empty if absent). -/
def getConsumerAddrsToPrune (st : KAState) (ts : Nat) : List Nat :=
  (alookup st.toPrune ts).getD []

/-- Modelled from the spec: `AppendConsumerAddrsToPrune` on the state. -/
def appendConsumerAddrsToPrune (st : KAState) (ts : Nat) (ca : Nat) : KAState :=
  { st with toPrune := appendPrune st.toPrune ts ca }

/-- Modelled from the spec: `DeleteConsumerAddrsToPrune` — remove the prune
bucket at the given timestamp. -/
def deleteConsumerAddrsToPrune (st : KAState) (ts : Nat) : KAState :=
  { st with toPrune := aremove st.toPrune ts }

/-- Modelled from the spec: `ConsumeConsumerAddrsToPrune` — return the
bucket at the given timestamp and delete it. -/
def consumeConsumerAddrsToPrune (st : KAState) (ts : Nat) : List Nat × KAState :=
  (getConsumerAddrsToPrune st ts, deleteConsumerAddrsToPrune st ts)

/-- A key-assignment command: an `AssignConsumerKey` transaction or an
end-of-block `PruneKeyAssignments`. -/
inductive KACmd : Type
  | assign (v : Validator) (ck : Nat) (now : Nat)
  | prune (now : Nat)
deriving DecidableEq

/-- One step of the key-assignment system; a failed assignment leaves the
state unchanged. -/
def kaStep (env : KAEnv) (st : KAState) : KACmd → KAState
  | .assign v ck now =>
      match assignConsumerKey env st v ck now with
      | .ok st2 => st2
      | .error _ => st
  | .prune now => pruneKeyAssignments env st now

/-- Run a sequence of key-assignment commands. -/
def kaRun (env : KAEnv) : KAState → List KACmd → KAState
  | st, [] => st
  | st, c :: cs => kaRun env (kaStep env st c) cs

/-- Command wellformedness: assignments are submitted by active
validators. -/
def KACmdWF (env : KAEnv) : KACmd → Prop
  | .assign v _ _ => v ∈ env.activeVals
  | .prune _ => True

/-- Environment wellformedness: the consensus-key hash is injective (the
spec's cryptographic binding), and active validators have pairwise
distinct provider keys and operator addresses. -/
def EnvWF (env : KAEnv) : Prop :=
  Function.Injective env.hash ∧
  (env.activeVals.map Validator.key).Nodup ∧
  (env.activeVals.map Validator.opAddr).Nodup

/-- Internal invariant of the key-assignment store: every current
assignment is reverse-mapped to its owner, and the reverse lookup of the
provider address of an unassigned active validator can only point to that
validator itself. -/
def KAInv (env : KAEnv) (st : KAState) : Prop :=
  (∀ pa ck, alookup st.assigned pa = some ck →
    alookup st.byConsAddr (env.hash ck) = some pa) ∧
  (∀ v, v ∈ env.activeVals → alookup st.assigned (v.pa env) = none →
    ∀ pa, alookup st.byConsAddr (v.pa env) = some pa → pa = v.pa env)

/-- The pruning property of the key-assignment store: every consumer
address in the reverse lookup is either derived from a current assignment
or listed in some pending prune bucket. -/
def PruneProp (env : KAEnv) (st : KAState) : Prop :=
  ∀ ca pa, alookup st.byConsAddr ca = some pa →
    (∃ pa2 ck, alookup st.assigned pa2 = some ck ∧ env.hash ck = ca) ∨
    (∃ t cas, alookup st.toPrune t = some cas ∧ ca ∈ cas)

/-- Modelled from the spec: the valset replicator maps each bonded provider
validator to its consumer-side address and power. -/
def consumerValSet (env : KAEnv) (st : KAState) (pv : List (Validator × Int)) :
    List (Nat × Int) :=
  pv.map (fun e => (caOf env st e.1, e.2))

/-- Forward validator-set replication: each provider validator with
positive power appears on the consumer under its resolved consumer
address, with the same power. -/
def ReplicationForward (env : KAEnv) (st : KAState) (pv : List (Validator × Int)) : Prop :=
  ∀ e ∈ pv, 0 < e.2 →
    (caOf env st e.1, e.2) ∈ consumerValSet env st pv ∧
    ∀ c ∈ consumerValSet env st pv, c.1 = caOf env st e.1 → c.2 = e.2

/-- Backward validator-set replication: each consumer validator with
positive power maps back through `getProviderAddrFromConsumerAddr` to a
provider validator with the same power. -/
def ReplicationBackward (env : KAEnv) (st : KAState) (pv : List (Validator × Int)) : Prop :=
  ∀ c ∈ consumerValSet env st pv, 0 < c.2 →
    ∃ e ∈ pv, env.hash e.1.key = getProviderAddrFromConsumerAddr st c.1 ∧ e.2 = c.2

/-- Infraction type carried by a slash packet. -/
inductive Infraction : Type
  | downtime
  | doubleSign
deriving DecidableEq

/-- Slash packet data: the misbehaving validator's consensus address on
the consumer and the infraction type. -/
structure SlashPacket : Type where
  ca : Nat
  infraction : Infraction
deriving DecidableEq

/-- Acknowledgment returned by the slash packet handler. -/
inductive SlashAck : Type
  | handled
  | bounce
deriving DecidableEq

/-- A provider validator as seen by the staking collaborator during slash
handling: consensus address, last bonded power, jailed flag. -/
structure SlashVal : Type where
  pa : Nat
  power : Int
  jailed : Bool
deriving DecidableEq

/-- State of the consumer-initiated-slashing subsystem: the staking
collaborator's validator table, the slash meter, the replenish candidate
time, and the slash log. -/
structure CISState : Type where
  vals : List SlashVal
  slashMeter : Int
  candidate : Nat
  slashLog : List Nat
deriving DecidableEq

/-- The replenish fraction, a rational given by numerator and denominator
(the decimal-string parameter of the code, e.g. 0.05 is 5 over 100). -/
structure Frac : Type where
  num : Nat
  den : Nat
deriving DecidableEq

/-- Rational value of a replenish fraction. -/
def Frac.q (f : Frac) : ℚ := (f.num : ℚ) / (f.den : ℚ)

/-- Modelled from the spec: the slash-meter allowance, recomputed on
demand as `max(1, floor(replenishFraction * totalBondedPower))`; the
floor of the rational product is the integer division of `num * total` by
`den` (see `allowance_eq_floor`). -/
def allowance (frac : Frac) (total : Int) : Int :=
  max 1 (((frac.num : Int) * total) / (frac.den : Int))

/-- Modelled from the spec: slash-meter initialization — the meter is set
to the full allowance and the replenish candidate to `now + period`. -/
def initSlashMeter (frac : Frac) (total : Int) (now period : Nat) (st : CISState) : CISState :=
  { st with slashMeter := allowance frac total, candidate := now + period }

/-- Modelled from the spec: `CheckForSlashMeterReplenishment` — a no-op
before the candidate time; otherwise replenish by one allowance (capped at
the allowance) and move the candidate one period ahead. -/
def checkForReplenishment (frac : Frac) (total : Int) (now period : Nat) (st : CISState) :
    CISState :=
  if now < st.candidate then st
  else
    { st with
      slashMeter := min (allowance frac total) (st.slashMeter + allowance frac total)
      candidate := now + period }

/-- Modelled from the spec: `ReplenishSlashMeter` — one explicit
replenishment tick, with the same min-with-allowance cap. -/
def replenishSlashMeter (frac : Frac) (total : Int) (st : CISState) : CISState :=
  { st with slashMeter := min (allowance frac total) (st.slashMeter + allowance frac total) }

/-- Look up a validator by consensus address in the staking table. -/
def findVal (vals : List SlashVal) (pa : Nat) : Option SlashVal :=
  vals.find? (fun w => decide (w.pa = pa))

/-- Jail the validator with the given consensus address. -/
def jailVal (vals : List SlashVal) (pa : Nat) : List SlashVal :=
  vals.map (fun w => if w.pa = pa then { w with jailed := true } else w)

/-- Whether the validator with the given consensus address is jailed. -/
def getJailed (vals : List SlashVal) (pa : Nat) : Bool :=
  ((findVal vals pa).map SlashVal.jailed).getD false

/-- Modelled from the spec: `OnRecvSlashPacket` — resolve the provider
address through key assignment; acknowledge packets of removed validators;
jail and log double-signs immediately, bypassing the meter; admit a
downtime slash only while the meter is positive, decrementing it by the
validator's last bonded power, and bounce otherwise. -/
def onRecvSlashPacket (ka : KAState) (st : CISState) (p : SlashPacket) :
    CISState × SlashAck :=
  let pa := getProviderAddrFromConsumerAddr ka p.ca
  match findVal st.vals pa with
  | none => (st, .handled)
  | some w =>
    match p.infraction with
    | .doubleSign =>
        ({ st with vals := jailVal st.vals pa, slashLog := pa :: st.slashLog }, .handled)
    | .downtime =>
        if 0 < st.slashMeter then
          ({ st with vals := jailVal st.vals pa, slashMeter := st.slashMeter - w.power },
            .handled)
        else (st, .bounce)

/-- A CIS operation: meter initialization, a BeginBlock replenishment
check, an explicit replenishment tick, or receiving a slash packet. -/
inductive CISOp : Type
  | initMeter (now period : Nat)
  | replenishCheck (now : Nat)
  | replenish
  | recv (p : SlashPacket)
deriving DecidableEq

/-- One step of the CIS subsystem under a fixed replenish fraction and
total bonded power. -/
def cisStep (frac : Frac) (total : Int) (period : Nat) (ka : KAState) (st : CISState) :
    CISOp → CISState
  | .initMeter now period2 => initSlashMeter frac total now period2 st
  | .replenishCheck now => checkForReplenishment frac total now period st
  | .replenish => replenishSlashMeter frac total st
  | .recv p => (onRecvSlashPacket ka st p).1

/-- Run a sequence of CIS operations. -/
def cisRun (frac : Frac) (total : Int) (period : Nat) (ka : KAState) :
    CISState → List CISOp → CISState
  | st, [] => st
  | st, o :: os => cisRun frac total period ka (cisStep frac total period ka st o) os

/-- Fold reception of a sequence of slash packets, keeping the states. -/
def recvSeq (ka : KAState) : CISState → List SlashPacket → CISState
  | st, [] => st
  | st, p :: ps => recvSeq ka (onRecvSlashPacket ka st p).1 ps

/-- Iterate the explicit replenishment tick. -/
def iterReplenish (frac : Frac) (total : Int) : CISState → Nat → CISState
  | st, 0 => st
  | st, k + 1 => iterReplenish frac total (replenishSlashMeter frac total st) k

/-- All staking powers in the table are nonnegative. -/
def PowersNonneg (vals : List SlashVal) : Prop :=
  ∀ w ∈ vals, 0 ≤ w.power

/-- Sample environment used by the concrete witnesses: identity hash, two
active validators, a 60-unit unbonding time. -/
def sampleVal0 : Validator := { opAddr := 0, key := 10 }

/-- Second sample validator. -/
def sampleVal1 : Validator := { opAddr := 1, key := 11 }

/-- Sample key-assignment environment. -/
def sampleEnv : KAEnv :=
  { hash := fun n => n, activeVals := [sampleVal0, sampleVal1], unbondingTime := 60 }

/-- A sample command list: validator 0 assigns consumer key 20, then a
prune runs at time 6. -/
def sampleCmds : List KACmd := [.assign sampleVal0 20 5, .prune 6]

/-- A sample provider valset with powers 5 and 7. -/
def samplePV : List (Validator × Int) := [(sampleVal0, 5), (sampleVal1, 7)]

/-- A sample CIS validator table: one validator of power 1000. -/
def sampleCISVals : List SlashVal := [{ pa := 7, power := 1000, jailed := false }]

/-- A sample CIS state with a positive meter. -/
def sampleCIS : CISState := { vals := sampleCISVals, slashMeter := 200, candidate := 30, slashLog := [] }

/-- The CIS state of the throttling test after the first admitted slash at
replenish fraction 0.1: meter at deficit 600. -/
def deficitCIS600 : CISState := { vals := [], slashMeter := -600, candidate := 0, slashLog := [] }

/-- The CIS state of the throttling test after the first admitted slash at
replenish fraction 0.05: meter at deficit 800. -/
def deficitCIS800 : CISState := { vals := [], slashMeter := -800, candidate := 0, slashLog := [] }

/-- Sample prune-bucket state for the C10 witness: addresses 101 and 102
pending at timestamps 5 and 8. -/
def sampleKAPrune : KAState :=
  appendConsumerAddrsToPrune (appendConsumerAddrsToPrune (kaInit .initd) 5 101) 8 102

theorem alookup_aset_self {α : Type} (l : List (Nat × α)) (k : Nat) (v : α) :
    alookup (aset l k v) k = some v := by
  induction l with
  | nil => simp [aset, alookup]
  | cons e rest ih =>
    by_cases h : e.1 = k
    · simp [aset, h, alookup]
    · simp [aset, h, alookup, ih]

theorem alookup_aset_ne {α : Type} (l : List (Nat × α)) (k k2 : Nat) (v : α)
    (h : k2 ≠ k) : alookup (aset l k v) k2 = alookup l k2 := by
  induction l with
  | nil => simp [aset, alookup, Ne.symm h]
  | cons e rest ih =>
    by_cases he : e.1 = k
    · simp [aset, he, alookup, Ne.symm h]
    · by_cases he2 : e.1 = k2
      · simp [aset, he, alookup, he2, h]
      · simp [aset, he, alookup, he2, ih]

theorem alookup_mem {α : Type} {l : List (Nat × α)} {k : Nat} {v : α}
    (h : alookup l k = some v) : (k, v) ∈ l := by
  induction l with
  | nil => simp [alookup] at h
  | cons e rest ih =>
    by_cases he : e.1 = k
    · simp only [alookup, if_pos he, Option.some.injEq] at h
      have he2 : e = (k, v) := by
        cases e
        simp_all
      rw [← he2]
      exact List.mem_cons_self _ _
    · simp only [alookup, if_neg he] at h
      exact List.mem_cons_of_mem _ (ih h)

theorem alookup_filter_key {α : Type} (l : List (Nat × α)) (q : Nat → Bool) (k : Nat) :
    alookup (l.filter (fun e => q e.1)) k = if q k then alookup l k else none := by
  induction l with
  | nil => cases hq : q k <;> simp [alookup, hq]
  | cons e rest ih =>
    by_cases he : e.1 = k
    · subst he
      by_cases hq : q e.1
      · simp [List.filter_cons, hq, alookup]
      · simp only [Bool.not_eq_true] at hq
        simp [List.filter_cons, hq, alookup, ih]
    · by_cases hq : q e.1
      · cases hqk : q k <;> simp [List.filter_cons, hq, alookup, he, ih, hqk]
      · simp only [Bool.not_eq_true] at hq
        cases hqk : q k <;> simp [List.filter_cons, hq, alookup, he, ih, hqk]

theorem alookup_aremove_self {α : Type} (l : List (Nat × α)) (k : Nat) :
    alookup (aremove l k) k = none := by
  have h2 := alookup_filter_key l (fun x => decide (x ≠ k)) k
  simp only [] at h2
  simpa [aremove] using h2

theorem alookup_aremove_ne {α : Type} (l : List (Nat × α)) (k k2 : Nat) (h : k2 ≠ k) :
    alookup (aremove l k) k2 = alookup l k2 := by
  have h2 := alookup_filter_key l (fun x => decide (x ≠ k)) k2
  simp only [] at h2
  simpa [aremove, h] using h2

theorem mem_catLists {a : Nat} {ls : List (List Nat)} :
    a ∈ catLists ls ↔ ∃ l ∈ ls, a ∈ l := by
  induction ls with
  | nil => simp [catLists]
  | cons xs rest ih => simp [catLists, ih]

theorem mem_keys_aset {α : Type} {l : List (Nat × α)} {k x : Nat} {v : α}
    (h : x ∈ (aset l k v).map Prod.fst) : x = k ∨ x ∈ l.map Prod.fst := by
  induction l with
  | nil => simpa [aset] using h
  | cons e rest ih =>
    by_cases he : e.1 = k
    · simp only [aset, if_pos he, List.map_cons, List.mem_cons] at h
      simp only [List.map_cons, List.mem_cons]
      tauto
    · simp only [aset, if_neg he, List.map_cons, List.mem_cons] at h
      simp only [List.map_cons, List.mem_cons]
      rcases h with h | h
      · tauto
      · rcases ih h with h2 | h2 <;> tauto

theorem aset_keys_nodup {α : Type} (l : List (Nat × α)) (k : Nat) (v : α)
    (h : (l.map Prod.fst).Nodup) : ((aset l k v).map Prod.fst).Nodup := by
  induction l with
  | nil => simp [aset]
  | cons e rest ih =>
    simp only [List.map_cons, List.nodup_cons] at h
    by_cases he : e.1 = k
    · subst he
      simpa [aset] using h
    · simp only [aset, if_neg he, List.map_cons, List.nodup_cons]
      refine ⟨?_, ih h.2⟩
      intro hmem
      rcases mem_keys_aset hmem with h2 | h2
      · exact he h2
      · exact h.1 h2

theorem alookup_of_mem_nodup {α : Type} {l : List (Nat × α)} {k : Nat} {v : α}
    (hnd : (l.map Prod.fst).Nodup) (h : (k, v) ∈ l) : alookup l k = some v := by
  induction l with
  | nil => simp at h
  | cons e rest ih =>
    simp only [List.map_cons, List.nodup_cons] at hnd
    rcases List.mem_cons.mp h with h1 | h1
    · rw [← h1]
      simp [alookup]
    · have hk : e.1 ≠ k := by
        intro hek
        exact hnd.1 (hek ▸ (List.mem_map.mpr ⟨(k, v), h1, rfl⟩))
      simp [alookup, hk, ih hnd.2 h1]

theorem assign_ok_elim {env : KAEnv} {st st2 : KAState} {v : Validator} {ck now : Nat}
    (h : assignConsumerKey env st v ck now = .ok st2) :
    phaseOk st.phase = true ∧ caTakenByOther env st v ck = false ∧
    ckCollides env v ck = false ∧ defaultNotReassignable env st v ck = false ∧
    st2 = applyAssign env st v ck now := by
  unfold assignConsumerKey at h
  by_cases h1 : phaseOk st.phase = true
  · by_cases h2 : caTakenByOther env st v ck = true
    · simp [h1, h2] at h
    · by_cases h3 : ckCollides env v ck = true
      · simp [h1, h2, h3] at h
      · by_cases h4 : defaultNotReassignable env st v ck = true
        · simp [h1, h2, h3, h4] at h
        · simp [h1, h2, h3, h4] at h
          exact ⟨h1, Bool.eq_false_iff.mpr h2, Bool.eq_false_iff.mpr h3,
            Bool.eq_false_iff.mpr h4, h.symm⟩
  · simp [h1] at h

theorem applyAssign_phase (env : KAEnv) (st : KAState) (v : Validator) (ck now : Nat) :
    (applyAssign env st v ck now).phase = st.phase := by
  cases hl : alookup st.assigned (v.pa env) <;> simp [applyAssign, hl]

theorem applyAssign_assigned (env : KAEnv) (st : KAState) (v : Validator) (ck now : Nat) :
    (applyAssign env st v ck now).assigned = aset st.assigned (v.pa env) ck := by
  cases hl : alookup st.assigned (v.pa env) <;> simp [applyAssign, hl]

theorem applyAssign_byConsAddr (env : KAEnv) (st : KAState) (v : Validator) (ck now : Nat) :
    (applyAssign env st v ck now).byConsAddr = aset st.byConsAddr (env.hash ck) (v.pa env) := by
  cases hl : alookup st.assigned (v.pa env) <;> simp [applyAssign, hl]

theorem applyAssign_toPrune_none {env : KAEnv} {st : KAState} {v : Validator} {ck now : Nat}
    (hl : alookup st.assigned (v.pa env) = none) :
    (applyAssign env st v ck now).toPrune = st.toPrune := by
  simp [applyAssign, hl]

theorem applyAssign_toPrune_some {env : KAEnv} {st : KAState} {v : Validator}
    {ck now oldCK : Nat} (hl : alookup st.assigned (v.pa env) = some oldCK) :
    (applyAssign env st v ck now).toPrune =
      appendPrune st.toPrune (now + env.unbondingTime) (env.hash oldCK) := by
  simp [applyAssign, hl]

theorem alookup_appendPrune_self (l : List (Nat × List Nat)) (t ca : Nat) :
    alookup (appendPrune l t ca) t = some ((alookup l t).getD [] ++ [ca]) :=
  alookup_aset_self l t _

theorem alookup_appendPrune_ne (l : List (Nat × List Nat)) (t t2 ca : Nat) (h : t2 ≠ t) :
    alookup (appendPrune l t ca) t2 = alookup l t2 :=
  alookup_aset_ne l t t2 _ h

theorem prunable_appendPrune {l : List (Nat × List Nat)} {t2 a : Nat} {cas : List Nat}
    (hl : alookup l t2 = some cas) (ha : a ∈ cas) (t ca : Nat) :
    ∃ cas2, alookup (appendPrune l t ca) t2 = some cas2 ∧ a ∈ cas2 := by
  by_cases he : t2 = t
  · subst he
    refine ⟨(alookup l t2).getD [] ++ [ca], alookup_appendPrune_self l t2 ca, ?_⟩
    rw [hl]
    simpa using Or.inl ha
  · exact ⟨cas, (alookup_appendPrune_ne l t t2 ca he).trans hl, ha⟩

theorem isCurrentCA_iff {env : KAEnv} {st : KAState} {ca : Nat} :
    isCurrentCA env st ca = true ↔ ∃ e ∈ st.assigned, env.hash e.2 = ca := by
  simp [isCurrentCA, List.any_eq_true]

theorem prune_phase (env : KAEnv) (st : KAState) (now : Nat) :
    (pruneKeyAssignments env st now).phase = st.phase := rfl

theorem prune_assigned (env : KAEnv) (st : KAState) (now : Nat) :
    (pruneKeyAssignments env st now).assigned = st.assigned := rfl

theorem prune_byConsAddr_lookup (env : KAEnv) (st : KAState) (now ca : Nat) :
    alookup (pruneKeyAssignments env st now).byConsAddr ca =
      if decide (ca ∉ dueCAs st now) || isCurrentCA env st ca then
        alookup st.byConsAddr ca
      else none := by
  have h2 := alookup_filter_key st.byConsAddr
    (fun x => decide (x ∉ dueCAs st now) || isCurrentCA env st x) ca
  simp only [] at h2
  exact h2

theorem prune_toPrune_lookup (env : KAEnv) (st : KAState) (now t : Nat) :
    alookup (pruneKeyAssignments env st now).toPrune t =
      if decide (now < t) then alookup st.toPrune t else none := by
  have h2 := alookup_filter_key st.toPrune (fun x => decide (now < x)) t
  simp only [] at h2
  exact h2

theorem taken_false_elim {env : KAEnv} {st : KAState} {v : Validator} {ck pa : Nat}
    (h : caTakenByOther env st v ck = false)
    (hl : alookup st.byConsAddr (env.hash ck) = some pa) : pa = v.pa env := by
  unfold caTakenByOther at h
  rw [hl] at h
  simpa using h

theorem collides_false_elim {env : KAEnv} {v w : Validator} {ck : Nat}
    (h : ckCollides env v ck = false)
    (hw : getValidatorByConsAddr env (env.hash ck) = some w) : w.opAddr = v.opAddr := by
  unfold ckCollides at h
  rw [hw] at h
  simpa using h

theorem getValidatorByConsAddr_found {env : KAEnv} {v2 : Validator} (hv : v2 ∈ env.activeVals)
    {ca : Nat} (hca : env.hash v2.key = ca) :
    ∃ w, getValidatorByConsAddr env ca = some w ∧ env.hash w.key = ca ∧
      w ∈ env.activeVals := by
  unfold getValidatorByConsAddr
  have hex : (env.activeVals.find? (fun w => decide (env.hash w.key = ca))).isSome := by
    rw [List.find?_isSome]
    exact ⟨v2, hv, by simpa using hca⟩
  obtain ⟨w, hw⟩ := Option.isSome_iff_exists.mp hex
  refine ⟨w, hw, ?_, List.mem_of_find?_eq_some hw⟩
  simpa using List.find?_some hw

theorem kaInv_init (env : KAEnv) (p : ConsumerPhase) : KAInv env (kaInit p) := by
  constructor
  · intro pa ck h
    simp [kaInit, alookup] at h
  · intro v hv hn pa h
    simp [kaInit, alookup] at h

theorem kaInv_assign {env : KAEnv} {st st2 : KAState} {v : Validator} {ck now : Nat}
    (henv : EnvWF env) (hv : v ∈ env.activeVals) (hInv : KAInv env st)
    (h : assignConsumerKey env st v ck now = .ok st2) : KAInv env st2 := by
  obtain ⟨hph, htaken, hcol, hdef, hst2⟩ := assign_ok_elim h
  subst hst2
  obtain ⟨hinj, hknd, hond⟩ := henv
  constructor
  · intro pa0 ck0 hl
    rw [applyAssign_assigned] at hl
    rw [applyAssign_byConsAddr]
    by_cases hpa : pa0 = v.pa env
    · subst hpa
      rw [alookup_aset_self] at hl
      injection hl with hl
      subst hl
      exact alookup_aset_self _ _ _
    · rw [alookup_aset_ne _ _ _ _ hpa] at hl
      have hold := hInv.1 pa0 ck0 hl
      by_cases hca : env.hash ck0 = env.hash ck
      · exact absurd (taken_false_elim htaken (hca ▸ hold)) hpa
      · rw [alookup_aset_ne _ _ _ _ hca]
        exact hold
  · intro v2 hv2 hn pa0 hb
    rw [applyAssign_assigned] at hn
    rw [applyAssign_byConsAddr] at hb
    have hpane : v2.pa env ≠ v.pa env := by
      intro he
      rw [he, alookup_aset_self] at hn
      cases hn
    rw [alookup_aset_ne _ _ _ _ hpane] at hn
    by_cases hca : v2.pa env = env.hash ck
    · exfalso
      obtain ⟨w, hw, hwk, hwmem⟩ :=
        getValidatorByConsAddr_found hv2 hca
      have hwkey : w.key = ck := by
        have hk2 : v2.key = ck := hinj hca
        exact hinj (hk2 ▸ hwk)
      have hwv2 : w = v2 := by
        refine List.inj_on_of_nodup_map hknd hwmem hv2 ?_
        rw [hwkey]
        exact hinj hca |>.symm ▸ rfl
      have hop : v2.opAddr = v.opAddr := by
        rw [← hwv2]
        exact collides_false_elim hcol hw
      have : v2 = v := List.inj_on_of_nodup_map hond hv2 hv hop
      exact hpane (by rw [this])
    · rw [alookup_aset_ne _ _ _ _ hca] at hb
      exact hInv.2 v2 hv2 hn pa0 hb

theorem kaInv_prune {env : KAEnv} {st : KAState} (now : Nat) (hInv : KAInv env st) :
    KAInv env (pruneKeyAssignments env st now) := by
  constructor
  · intro pa ck hl
    rw [prune_assigned] at hl
    rw [prune_byConsAddr_lookup]
    have hcur : isCurrentCA env st (env.hash ck) = true :=
      isCurrentCA_iff.mpr ⟨(pa, ck), alookup_mem hl, rfl⟩
    rw [hcur]
    simp only [Bool.or_true, if_true]
    exact hInv.1 pa ck hl
  · intro v2 hv2 hn pa0 hb
    rw [prune_assigned] at hn
    rw [prune_byConsAddr_lookup] at hb
    by_cases hq : (decide ((v2.pa env) ∉ dueCAs st now) || isCurrentCA env st (v2.pa env)) = true
    · rw [hq] at hb
      simp only [if_true] at hb
      exact hInv.2 v2 hv2 hn pa0 hb
    · rw [Bool.eq_false_iff.mpr hq] at hb
      simp at hb

theorem kaInv_step {env : KAEnv} {st : KAState} {c : KACmd}
    (henv : EnvWF env) (hc : KACmdWF env c) (hInv : KAInv env st) :
    KAInv env (kaStep env st c) := by
  cases c with
  | assign v ck now =>
    simp only [kaStep]
    cases h : assignConsumerKey env st v ck now with
    | ok st2 => exact kaInv_assign henv hc hInv h
    | error e => exact hInv
  | prune now => exact kaInv_prune now hInv

theorem kaInv_run {env : KAEnv} (henv : EnvWF env) (cmds : List KACmd) :
    ∀ st : KAState, (∀ c ∈ cmds, KACmdWF env c) → KAInv env st →
      KAInv env (kaRun env st cmds) := by
  induction cmds with
  | nil =>
    intro st _ hInv
    exact hInv
  | cons c cs ih =>
    intro st hc hInv
    exact ih _ (fun d hd => hc d (List.mem_cons_of_mem _ hd))
      (kaInv_step henv (hc c (List.mem_cons_self _ _)) hInv)

theorem getProviderAddr_caOf {env : KAEnv} {st : KAState} {v : Validator}
    (hInv : KAInv env st) (hv : v ∈ env.activeVals) :
    getProviderAddrFromConsumerAddr st (caOf env st v) = v.pa env := by
  unfold caOf resolveConsumerKey getProviderAddrFromConsumerAddr
  cases hl : alookup st.assigned (v.pa env) with
  | some ck =>
    simp only [hl, Option.getD_some]
    rw [hInv.1 (v.pa env) ck hl]
    rfl
  | none =>
    simp only [hl, Option.getD_none]
    cases hb : alookup st.byConsAddr (env.hash v.key) with
    | none => simp [Validator.pa]
    | some pa0 =>
      simp only [Option.getD_some]
      exact hInv.2 v hv hl pa0 hb

theorem pruneProp_init (env : KAEnv) (p : ConsumerPhase) : PruneProp env (kaInit p) := by
  intro ca pa h
  simp [kaInit, alookup] at h

/-- The current-assignment store keeps pairwise distinct provider
addresses (a KV-store key is unique). -/
def AssignedKeysNodup (st : KAState) : Prop := (st.assigned.map Prod.fst).Nodup

theorem pruneProp_assign {env : KAEnv} {st st2 : KAState} {v : Validator} {ck now : Nat}
    (h : assignConsumerKey env st v ck now = .ok st2) (hp : PruneProp env st) :
    PruneProp env st2 := by
  obtain ⟨hph, htaken, hcol, hdef, hst2⟩ := assign_ok_elim h
  subst hst2
  intro ca pa0 hb
  rw [applyAssign_byConsAddr] at hb
  by_cases hca : ca = env.hash ck
  · subst hca
    left
    refine ⟨v.pa env, ck, ?_, rfl⟩
    rw [applyAssign_assigned]
    exact alookup_aset_self _ _ _
  · rw [alookup_aset_ne _ _ _ _ hca] at hb
    rcases hp ca pa0 hb with ⟨pa2, ck2, hl2, hh2⟩ | ⟨t, cas, ht, hmem⟩
    · by_cases hpa2 : pa2 = v.pa env
      · subst hpa2
        right
        rw [applyAssign_toPrune_some hl2]
        refine ⟨now + env.unbondingTime, _, alookup_appendPrune_self _ _ _, ?_⟩
        rw [← hh2]
        simp
      · left
        refine ⟨pa2, ck2, ?_, hh2⟩
        rw [applyAssign_assigned, alookup_aset_ne _ _ _ _ hpa2]
        exact hl2
    · right
      cases hl : alookup st.assigned (v.pa env) with
      | none =>
        rw [applyAssign_toPrune_none hl]
        exact ⟨t, cas, ht, hmem⟩
      | some oldCK =>
        rw [applyAssign_toPrune_some hl]
        obtain ⟨cas2, hc2, hm2⟩ :=
          prunable_appendPrune ht hmem (now + env.unbondingTime) (env.hash oldCK)
        exact ⟨t, cas2, hc2, hm2⟩

theorem pruneProp_prune {env : KAEnv} {st : KAState} (now : Nat)
    (hnd : AssignedKeysNodup st) (hp : PruneProp env st) :
    PruneProp env (pruneKeyAssignments env st now) := by
  intro ca pa0 hb
  rw [prune_byConsAddr_lookup] at hb
  by_cases hq : (decide (ca ∉ dueCAs st now) || isCurrentCA env st ca) = true
  case neg =>
    rw [Bool.eq_false_iff.mpr hq] at hb
    simp at hb
  rw [hq] at hb
  simp only [if_pos] at hb
  rcases hp ca pa0 hb with hcur | ⟨t, cas, ht, hmem⟩
  · left
    exact hcur
  · by_cases hts : now < t
    · right
      refine ⟨t, cas, ?_, hmem⟩
      rw [prune_toPrune_lookup]
      simp [hts, ht]
    · have hdue : ca ∈ dueCAs st now := by
        unfold dueCAs
        rw [mem_catLists]
        refine ⟨cas, ?_, hmem⟩
        rw [List.mem_map]
        refine ⟨(t, cas), ?_, rfl⟩
        rw [List.mem_filter]
        exact ⟨alookup_mem ht, by simpa using Nat.le_of_not_lt hts⟩
      have hcur : isCurrentCA env st ca = true := by
        rcases Bool.or_eq_true_iff.mp hq with h1 | h2
        · exact absurd hdue (by simpa using h1)
        · exact h2
      left
      obtain ⟨e, he, hh⟩ := isCurrentCA_iff.mp hcur
      refine ⟨e.1, e.2, ?_, hh⟩
      show alookup st.assigned e.1 = some e.2
      exact alookup_of_mem_nodup hnd (by rw [Prod.mk.eta]; exact he)

/-- Combined store invariant carried through executions for the pruning
property. -/
def KAOk (env : KAEnv) (st : KAState) : Prop :=
  PruneProp env st ∧ AssignedKeysNodup st

theorem kaOk_step {env : KAEnv} {st : KAState} (c : KACmd) (h : KAOk env st) :
    KAOk env (kaStep env st c) := by
  cases c with
  | assign v ck now =>
    simp only [kaStep]
    cases ha : assignConsumerKey env st v ck now with
    | error e => exact h
    | ok st2 =>
      obtain ⟨hph, ht, hc, hd, hst2⟩ := assign_ok_elim ha
      refine ⟨pruneProp_assign ha h.1, ?_⟩
      subst hst2
      unfold AssignedKeysNodup
      rw [applyAssign_assigned]
      exact aset_keys_nodup _ _ _ h.2
  | prune now => exact ⟨pruneProp_prune now h.2 h.1, h.2⟩

theorem kaOk_run {env : KAEnv} (cmds : List KACmd) :
    ∀ st : KAState, KAOk env st → KAOk env (kaRun env st cmds) := by
  induction cmds with
  | nil =>
    intro st h
    exact h
  | cons c cs ih =>
    intro st h
    exact ih _ (kaOk_step c h)

theorem kaOk_init (env : KAEnv) (p : ConsumerPhase) : KAOk env (kaInit p) :=
  ⟨pruneProp_init env p, by simp [kaInit, AssignedKeysNodup]⟩

theorem one_le_allowance (frac : Frac) (total : Int) : 1 ≤ allowance frac total :=
  le_max_left 1 _

theorem allowance_pos (frac : Frac) (total : Int) : 0 < allowance frac total :=
  lt_of_lt_of_le one_pos (one_le_allowance frac total)

theorem findVal_mem {vals : List SlashVal} {pa : Nat} {w : SlashVal}
    (h : findVal vals pa = some w) : w ∈ vals :=
  List.mem_of_find?_eq_some h

theorem jailVal_powers {vals : List SlashVal} {pa : Nat} {w : SlashVal}
    (h : w ∈ jailVal vals pa) : ∃ w0 ∈ vals, w.power = w0.power := by
  unfold jailVal at h
  obtain ⟨w0, hw0, he⟩ := List.mem_map.mp h
  refine ⟨w0, hw0, ?_⟩
  by_cases hp : w0.pa = pa
  · rw [if_pos hp] at he
    rw [← he]
  · rw [if_neg hp] at he
    rw [← he]

theorem powersNonneg_jailVal {vals : List SlashVal} (pa : Nat) (h : PowersNonneg vals) :
    PowersNonneg (jailVal vals pa) := by
  intro w hw
  obtain ⟨w0, hw0, he⟩ := jailVal_powers hw
  rw [he]
  exact h w0 hw0

theorem getJailed_jailVal {vals : List SlashVal} {pa : Nat} {w : SlashVal}
    (h : findVal vals pa = some w) : getJailed (jailVal vals pa) pa = true := by
  induction vals with
  | nil => simp [findVal] at h
  | cons x rest ih =>
    by_cases hx : x.pa = pa
    · simp [jailVal, getJailed, findVal, List.find?, hx]
    · unfold findVal at h
      rw [List.find?_cons_of_neg _ (by simpa using hx)] at h
      have h2 := ih h
      unfold getJailed findVal jailVal at h2 ⊢
      simp only [List.map_cons, if_neg hx]
      rw [List.find?_cons_of_neg _ (by simpa using hx)]
      exact h2

/-- The meter-bound invariant of the CIS subsystem: the slash meter never
exceeds the allowance, and staking powers are nonnegative. -/
def CISInv (frac : Frac) (total : Int) (st : CISState) : Prop :=
  st.slashMeter ≤ allowance frac total ∧ PowersNonneg st.vals

theorem cisInv_step (frac : Frac) (total : Int) (period : Nat) (ka : KAState)
    (st : CISState) (o : CISOp) (h : CISInv frac total st) :
    CISInv frac total (cisStep frac total period ka st o) := by
  cases o with
  | initMeter now period2 => exact ⟨le_refl _, h.2⟩
  | replenishCheck now =>
    unfold cisStep checkForReplenishment
    by_cases hlt : now < st.candidate
    · simp only [if_pos hlt]
      exact h
    · simp only [if_neg hlt]
      exact ⟨min_le_left _ _, h.2⟩
  | replenish => exact ⟨min_le_left _ _, h.2⟩
  | recv p =>
    unfold cisStep onRecvSlashPacket
    cases hf : findVal st.vals (getProviderAddrFromConsumerAddr ka p.ca) with
    | none =>
      simp only [hf]
      exact h
    | some w =>
      cases hi : p.infraction with
      | doubleSign =>
        simp only [hf, hi]
        exact ⟨h.1, powersNonneg_jailVal _ h.2⟩
      | downtime =>
        by_cases hm : 0 < st.slashMeter
        · simp only [hf, hi, if_pos hm]
          refine ⟨?_, powersNonneg_jailVal _ h.2⟩
          have hw : 0 ≤ w.power := h.2 w (findVal_mem hf)
          have := h.1
          simp only []
          linarith
        · simp only [hf, hi, if_neg hm]
          exact h

theorem cisInv_run (frac : Frac) (total : Int) (period : Nat) (ka : KAState)
    (ops : List CISOp) :
    ∀ st : CISState, CISInv frac total st →
      CISInv frac total (cisRun frac total period ka st ops) := by
  induction ops with
  | nil =>
    intro st h
    exact h
  | cons o os ih =>
    intro st h
    exact ih _ (cisInv_step frac total period ka st o h)

theorem iterReplenish_meter (frac : Frac) (total : Int) :
    ∀ (k : Nat) (st : CISState),
      st.slashMeter + (k : Int) * allowance frac total ≤ allowance frac total →
      (iterReplenish frac total st k).slashMeter
        = st.slashMeter + (k : Int) * allowance frac total := by
  intro k
  induction k with
  | zero =>
    intro st h
    simp [iterReplenish]
  | succ k ih =>
    intro st h
    have ha := allowance_pos frac total
    have hka : (0 : Int) ≤ (k : Int) * allowance frac total :=
      mul_nonneg (Int.natCast_nonneg k) (le_of_lt ha)
    push_cast at h
    have hm0 : st.slashMeter ≤ 0 := by nlinarith
    have hrep : (replenishSlashMeter frac total st).slashMeter
        = st.slashMeter + allowance frac total := by
      unfold replenishSlashMeter
      simp only []
      exact min_eq_right (by linarith)
    have hcond : (replenishSlashMeter frac total st).slashMeter
        + (k : Int) * allowance frac total ≤ allowance frac total := by
      rw [hrep]
      nlinarith
    have hval := ih (replenishSlashMeter frac total st) hcond
    show (iterReplenish frac total (replenishSlashMeter frac total st) k).slashMeter = _
    rw [hval, hrep]
    push_cast
    ring

/-- Claim C1: validator-set replication.  After any sequence of key
assignments and prunings, for every provider validator with positive power
the consumer validator at the hash of its resolved key (the assigned key,
or the provider's own key by default) has the same power on the consumer,
and conversely every consumer validator with positive power maps back via
`getProviderAddrFromConsumerAddr` to a provider validator with the same
power. -/
theorem validatorSetReplication (env : KAEnv) (cmds : List KACmd)
    (pv : List (Validator × Int)) (henv : EnvWF env)
    (hcmds : ∀ c ∈ cmds, KACmdWF env c)
    (hpv : ∀ e ∈ pv, e.1 ∈ env.activeVals)
    (hnd : (pv.map (fun e => e.1.key)).Nodup) :
    ReplicationForward env (kaRun env (kaInit .initd) cmds) pv ∧
    ReplicationBackward env (kaRun env (kaInit .initd) cmds) pv := by
  have hInv : KAInv env (kaRun env (kaInit .initd) cmds) :=
    kaInv_run henv cmds _ hcmds (kaInv_init env _)
  set st := kaRun env (kaInit .initd) cmds
  have hkey : ∀ e1 ∈ pv, ∀ e2 ∈ pv,
      caOf env st e1.1 = caOf env st e2.1 → e1 = e2 := by
    intro e1 h1 e2 h2 hca
    have g1 := getProviderAddr_caOf hInv (hpv e1 h1)
    have g2 := getProviderAddr_caOf hInv (hpv e2 h2)
    have hpa : e1.1.pa env = e2.1.pa env := by
      rw [← g1, ← g2, hca]
    have hk : e1.1.key = e2.1.key := henv.1 hpa
    exact List.inj_on_of_nodup_map hnd h1 h2 hk
  constructor
  · intro e he hpos
    constructor
    · exact List.mem_map.mpr ⟨e, he, rfl⟩
    · intro c hc hcac
      obtain ⟨e2, he2, hce⟩ := List.mem_map.mp hc
      have hca2 : caOf env st e2.1 = caOf env st e.1 := by
        rw [← hcac, ← hce]
      have he2e : e2 = e := hkey e2 he2 e he hca2
      rw [← hce, he2e]
  · intro c hc hpos
    obtain ⟨e2, he2, hce⟩ := List.mem_map.mp hc
    refine ⟨e2, he2, ?_, ?_⟩
    · have hc1 : c.1 = caOf env st e2.1 := by rw [← hce]
      rw [hc1, getProviderAddr_caOf hInv (hpv e2 he2)]
      rfl
    · rw [← hce]

/-- Claim C2: pruning invariant.  After any sequence of `AssignConsumerKey`
and `PruneKeyAssignments` commands, every consumer address in the reverse
lookup either derives from the current assigned key of some provider
address or appears in some pending prune bucket. -/
theorem pruningInvariant (env : KAEnv) (p : ConsumerPhase) (cmds : List KACmd)
    (ca pa : Nat)
    (h : alookup (kaRun env (kaInit p) cmds).byConsAddr ca = some pa) :
    (∃ pa2 ck, alookup (kaRun env (kaInit p) cmds).assigned pa2 = some ck ∧
      env.hash ck = ca) ∨
    (∃ t cas, alookup (kaRun env (kaInit p) cmds).toPrune t = some cas ∧ ca ∈ cas) := by
  have hok : KAOk env (kaRun env (kaInit p) cmds) :=
    kaOk_run cmds (kaInit p) (kaOk_init env p)
  exact hok.1 ca pa h

theorem allowance_eq_floor (frac : Frac) (total : Int) :
    allowance frac total = max 1 ⌊frac.q * (total : ℚ)⌋ := by
  unfold allowance Frac.q
  congr 1
  have h := Rat.floor_intCast_div_natCast ((frac.num : Int) * total) frac.den
  rw [← h]
  congr 1
  push_cast
  ring

/-- Claim C3: meter bound.  After every operation of a run started by
meter initialization (further initializations, replenishment checks,
explicit replenishments, slash admissions), the slash meter stays at or
below the allowance; the allowance is the spec formula
`max(1, floor(replenishFraction * totalBondedPower))`, floored at 1
whenever the product is below 1, and recomputed on demand: the test's
values 1 (4 total power), 200 (4000 total power at fraction 5 percent)
and 1200 (fraction changed to 30 percent) are reproduced. -/
theorem slashMeterBound (frac : Frac) (total : Int) (period : Nat) (ka : KAState)
    (st : CISState) (now period2 : Nat) (ops : List CISOp)
    (hpow : PowersNonneg st.vals) :
    (cisRun frac total period ka (initSlashMeter frac total now period2 st) ops).slashMeter
      ≤ allowance frac total ∧
    allowance frac total = max 1 ⌊frac.q * (total : ℚ)⌋ ∧
    (frac.q * (total : ℚ) < 1 → allowance frac total = 1) ∧
    allowance ⟨1, 20⟩ 4 = 1 ∧ allowance ⟨1, 20⟩ 4000 = 200 ∧
    allowance ⟨3, 10⟩ 4000 = 1200 := by
  refine ⟨?_, allowance_eq_floor frac total, ?_, by decide, by decide, by decide⟩
  · exact (cisInv_run frac total period ka ops
      (initSlashMeter frac total now period2 st) ⟨le_refl _, hpow⟩).1
  · intro h
    rw [allowance_eq_floor]
    have h2 : ⌊frac.q * (total : ℚ)⌋ < 1 := by
      rw [Int.floor_lt]
      exact_mod_cast h
    exact max_eq_left (by omega)

/-- Claim C6, counterexample: with deficit 600 and allowance 300 (the 0.1
replenish-fraction row of the basic throttling test), the claimed
ceil(deficit over allowance) = 2 replenishment ticks leave the meter at
exactly 0, which is not positive; a third tick is required, matching the
test's expectation of ceil((600+1)/300) = 3 replenishes. -/
theorem replenishCeilFormulaFails :
    (⌈(600 : ℚ) / 300⌉ = 2) ∧
    allowance ⟨1, 10⟩ 3000 = 300 ∧
    deficitCIS600.slashMeter = -600 ∧
    (iterReplenish ⟨1, 10⟩ 3000 deficitCIS600 2).slashMeter = 0 ∧
    ¬ 0 < (iterReplenish ⟨1, 10⟩ 3000 deficitCIS600 2).slashMeter ∧
    0 < (iterReplenish ⟨1, 10⟩ 3000 deficitCIS600 3).slashMeter := by
  refine ⟨?_, by decide, rfl, by decide, by decide, by decide⟩
  rw [show (600 : ℚ) / 300 = ((2 : ℤ) : ℚ) by norm_num]
  exact Int.ceil_intCast 2

/-- Claim C6, amended: once the meter is negative with deficit d, exactly
floor(d over allowance) + 1 replenishment ticks are required for it to
become positive — the meter is positive after that many ticks and not
positive after any smaller number of ticks.  This equals
ceil(d over allowance) except when the allowance divides the deficit
exactly, where one extra tick is needed since the meter reaches 0. -/
theorem replenishTicksToPositive (frac : Frac) (total : Int) (st : CISState)
    (hm : st.slashMeter < 0) :
    0 < (iterReplenish frac total st
      (((-st.slashMeter) / allowance frac total).toNat + 1)).slashMeter ∧
    ∀ j : Nat, j < ((-st.slashMeter) / allowance frac total).toNat + 1 →
      ¬ 0 < (iterReplenish frac total st j).slashMeter := by
  have ha := allowance_pos frac total
  set a := allowance frac total with ha_def
  set d : Int := -st.slashMeter with hd_def
  have hd : 0 < d := by
    rw [hd_def]
    linarith
  set q : Int := d / a with hq_def
  have hq0 : 0 ≤ q := Int.ediv_nonneg (le_of_lt hd) (le_of_lt ha)
  have hdm : a * q + d % a = d := Int.ediv_add_emod d a
  have hr0 : 0 ≤ d % a := Int.emod_nonneg d (ne_of_gt ha)
  have hr1 : d % a < a := Int.emod_lt_of_pos d ha
  have hqk : ((q.toNat + 1 : Nat) : Int) = q + 1 := by
    push_cast
    rw [Int.toNat_of_nonneg hq0]
  have hmd : st.slashMeter = -d := by
    rw [hd_def]
    ring
  have hbound : st.slashMeter + ((q.toNat + 1 : Nat) : Int) * a ≤ a := by
    rw [hqk, hmd]
    nlinarith
  have hk := iterReplenish_meter frac total (q.toNat + 1) st hbound
  constructor
  · rw [hk, hqk, hmd]
    nlinarith
  · intro j hj
    have hj2 : (j : Int) ≤ q := by
      have hj3 : j ≤ q.toNat := Nat.lt_succ_iff.mp hj
      calc (j : Int) ≤ (q.toNat : Int) := by exact_mod_cast hj3
        _ = q := Int.toNat_of_nonneg hq0
    have h1 : (j : Int) * a ≤ q * a := mul_le_mul_of_nonneg_right hj2 (le_of_lt ha)
    have hjb : st.slashMeter + (j : Int) * a ≤ a := by
      rw [hmd]
      nlinarith
    rw [iterReplenish_meter frac total j st hjb, hmd]
    intro hpos
    nlinarith

/-- Claim C7: replenishment-check semantics.  Before the candidate time
the check is a no-op; at or after it, the meter becomes
`min(allowance, meter + allowance)`, the candidate becomes
`now + period`, and nothing else changes. -/
theorem checkForReplenishmentSemantics (frac : Frac) (total : Int) (now period : Nat)
    (st : CISState) :
    (now < st.candidate → checkForReplenishment frac total now period st = st) ∧
    (st.candidate ≤ now →
      (checkForReplenishment frac total now period st).slashMeter
        = min (allowance frac total) (st.slashMeter + allowance frac total) ∧
      (checkForReplenishment frac total now period st).candidate = now + period ∧
      (checkForReplenishment frac total now period st).vals = st.vals ∧
      (checkForReplenishment frac total now period st).slashLog = st.slashLog) := by
  constructor
  · intro h
    simp [checkForReplenishment, h]
  · intro h
    have h2 : ¬ now < st.candidate := Nat.not_lt.mpr h
    simp [checkForReplenishment, h2]

/-- Claim C8: double-sign bypass.  Receiving any sequence of double-sign
slash packets leaves the slash meter unchanged. -/
theorem doubleSignBypass (ka : KAState) (ps : List SlashPacket) (st : CISState)
    (hps : ∀ p ∈ ps, p.infraction = .doubleSign) :
    (recvSeq ka st ps).slashMeter = st.slashMeter := by
  induction ps generalizing st with
  | nil => rfl
  | cons p rest ih =>
    have hstep : (onRecvSlashPacket ka st p).1.slashMeter = st.slashMeter := by
      have hi := hps p (List.mem_cons_self _ _)
      unfold onRecvSlashPacket
      cases hf : findVal st.vals (getProviderAddrFromConsumerAddr ka p.ca) <;>
        simp [hf, hi]
    calc (recvSeq ka st (p :: rest)).slashMeter
        = (recvSeq ka (onRecvSlashPacket ka st p).1 rest).slashMeter := rfl
      _ = (onRecvSlashPacket ka st p).1.slashMeter :=
          ih _ (fun p2 h2 => hps p2 (List.mem_cons_of_mem _ h2))
      _ = st.slashMeter := hstep

/-- Claim C4: downtime slash handling.  When a downtime slash packet
resolves to an existing provider validator, a positive meter admits the
slash — the validator is jailed, the meter is decremented by the
validator's bonded power (possibly below zero), and the packet is
acknowledged as handled; a non-positive meter bounces the packet with the
state unchanged and no jailing. -/
theorem downtimeSlashHandling (ka : KAState) (st : CISState) (p : SlashPacket)
    (w : SlashVal)
    (hfind : findVal st.vals (getProviderAddrFromConsumerAddr ka p.ca) = some w)
    (hinf : p.infraction = .downtime) :
    (0 < st.slashMeter →
      onRecvSlashPacket ka st p =
        ({ st with
            vals := jailVal st.vals (getProviderAddrFromConsumerAddr ka p.ca)
            slashMeter := st.slashMeter - w.power }, .handled) ∧
      getJailed (onRecvSlashPacket ka st p).1.vals
        (getProviderAddrFromConsumerAddr ka p.ca) = true) ∧
    (¬ 0 < st.slashMeter →
      onRecvSlashPacket ka st p = (st, .bounce)) := by
  constructor
  · intro hm
    have he : onRecvSlashPacket ka st p =
        ({ st with
            vals := jailVal st.vals (getProviderAddrFromConsumerAddr ka p.ca)
            slashMeter := st.slashMeter - w.power }, .handled) := by
      unfold onRecvSlashPacket
      simp only [hfind, hinf, if_pos hm]
    refine ⟨he, ?_⟩
    rw [he]
    exact getJailed_jailVal hfind
  · intro hm
    unfold onRecvSlashPacket
    simp only [hfind, hinf, if_neg hm]

/-- Claim C5: double-sign handling.  A double-sign slash packet resolving
to an existing provider validator records a SlashLog entry for the
provider address and jails the validator immediately, independent of the
slash meter, which is left unchanged. -/
theorem doubleSignHandling (ka : KAState) (st : CISState) (p : SlashPacket) (w : SlashVal)
    (hfind : findVal st.vals (getProviderAddrFromConsumerAddr ka p.ca) = some w)
    (hinf : p.infraction = .doubleSign) :
    onRecvSlashPacket ka st p =
      ({ st with
          vals := jailVal st.vals (getProviderAddrFromConsumerAddr ka p.ca)
          slashLog := getProviderAddrFromConsumerAddr ka p.ca :: st.slashLog },
        .handled) ∧
    getProviderAddrFromConsumerAddr ka p.ca ∈ (onRecvSlashPacket ka st p).1.slashLog ∧
    getJailed (onRecvSlashPacket ka st p).1.vals
      (getProviderAddrFromConsumerAddr ka p.ca) = true ∧
    (onRecvSlashPacket ka st p).1.slashMeter = st.slashMeter := by
  have he : onRecvSlashPacket ka st p =
      ({ st with
          vals := jailVal st.vals (getProviderAddrFromConsumerAddr ka p.ca)
          slashLog := getProviderAddrFromConsumerAddr ka p.ca :: st.slashLog },
        .handled) := by
    unfold onRecvSlashPacket
    simp only [hfind, hinf]
  refine ⟨he, ?_, ?_, ?_⟩
  · rw [he]
    exact List.mem_cons_self _ _
  · rw [he]
    exact getJailed_jailVal hfind
  · rw [he]

/-- Claim C9: default-key reassignment rule.  Assigning the validator's
own provider key fails with DefaultNotReassignable when the validator has
no prior assignment on the consumer (and no earlier check fires); once a
non-default key has been assigned, assigning the own default key back
succeeds. -/
theorem defaultKeyReassignmentRule (env : KAEnv) (st st1 : KAState) (v : Validator)
    (ck now now2 : Nat) :
    (phaseOk st.phase = true →
      caTakenByOther env st v v.key = false →
      ckCollides env v v.key = false →
      alookup st.assigned (v.pa env) = none →
      assignConsumerKey env st v v.key now = .error .defaultNotReassignable) ∧
    (Function.Injective env.hash →
      ck ≠ v.key →
      assignConsumerKey env st v ck now = .ok st1 →
      (alookup st.byConsAddr (env.hash v.key) = none ∨
        alookup st.byConsAddr (env.hash v.key) = some (v.pa env)) →
      ckCollides env v v.key = false →
      ∃ st2, assignConsumerKey env st1 v v.key now2 = .ok st2) := by
  constructor
  · intro hph htaken hcol hnone
    have hdef : defaultNotReassignable env st v v.key = true := by
      unfold defaultNotReassignable
      simp [hnone]
    unfold assignConsumerKey
    simp [hph, htaken, hcol, hdef]
  · intro hinj hck h1 hclean hcol
    obtain ⟨hph, _, _, _, hst1⟩ := assign_ok_elim h1
    have hph1 : phaseOk st1.phase = true := by
      rw [hst1, applyAssign_phase]
      exact hph
    have hne : env.hash v.key ≠ env.hash ck := by
      intro he
      exact hck (hinj he).symm
    have hb1 : alookup st1.byConsAddr (env.hash v.key)
        = alookup st.byConsAddr (env.hash v.key) := by
      rw [hst1, applyAssign_byConsAddr]
      exact alookup_aset_ne _ _ _ _ hne
    have htaken1 : caTakenByOther env st1 v v.key = false := by
      unfold caTakenByOther
      rw [hb1]
      rcases hclean with hc | hc
      · rw [hc]
      · rw [hc]
        simp [Validator.pa]
    have hassigned1 : alookup st1.assigned (v.pa env) = some ck := by
      rw [hst1, applyAssign_assigned]
      exact alookup_aset_self _ _ _
    have hdef1 : defaultNotReassignable env st1 v v.key = false := by
      unfold defaultNotReassignable
      rw [hassigned1]
      simp
    refine ⟨applyAssign env st1 v v.key now2, ?_⟩
    unfold assignConsumerKey
    simp [hph1, htaken1, hcol, hdef1]

/-- Claim C10: prune-bucket frame.  Consuming the bucket of a timestamp
returns exactly its address list and deletes only that bucket, deleting a
bucket affects no other timestamp, and appending extends only the bucket
of the given timestamp. -/
theorem pruneBucketFrame (st : KAState) (ts ca : Nat) :
    (consumeConsumerAddrsToPrune st ts).1 = getConsumerAddrsToPrune st ts ∧
    getConsumerAddrsToPrune (consumeConsumerAddrsToPrune st ts).2 ts = [] ∧
    (∀ ts2, ts2 ≠ ts →
      getConsumerAddrsToPrune (consumeConsumerAddrsToPrune st ts).2 ts2
        = getConsumerAddrsToPrune st ts2) ∧
    getConsumerAddrsToPrune (deleteConsumerAddrsToPrune st ts) ts = [] ∧
    (∀ ts2, ts2 ≠ ts →
      getConsumerAddrsToPrune (deleteConsumerAddrsToPrune st ts) ts2
        = getConsumerAddrsToPrune st ts2) ∧
    getConsumerAddrsToPrune (appendConsumerAddrsToPrune st ts ca) ts
      = getConsumerAddrsToPrune st ts ++ [ca] := by
  refine ⟨rfl, ?_, ?_, ?_, ?_, ?_⟩
  · show getConsumerAddrsToPrune (deleteConsumerAddrsToPrune st ts) ts = []
    unfold getConsumerAddrsToPrune deleteConsumerAddrsToPrune
    simp [alookup_aremove_self]
  · intro ts2 h
    show getConsumerAddrsToPrune (deleteConsumerAddrsToPrune st ts) ts2 = _
    unfold getConsumerAddrsToPrune deleteConsumerAddrsToPrune
    simp [alookup_aremove_ne _ _ _ h]
  · unfold getConsumerAddrsToPrune deleteConsumerAddrsToPrune
    simp [alookup_aremove_self]
  · intro ts2 h
    unfold getConsumerAddrsToPrune deleteConsumerAddrsToPrune
    simp [alookup_aremove_ne _ _ _ h]
  · unfold getConsumerAddrsToPrune appendConsumerAddrsToPrune
    simp only []
    rw [alookup_appendPrune_self]
    simp

theorem validatorSetReplication_witness :
    ReplicationForward sampleEnv (kaRun sampleEnv (kaInit .initd) sampleCmds) samplePV ∧
    ReplicationBackward sampleEnv (kaRun sampleEnv (kaInit .initd) sampleCmds) samplePV :=
  validatorSetReplication sampleEnv sampleCmds samplePV
    ⟨fun a b h => h, by decide, by decide⟩
    (by
      intro c hc
      rcases List.mem_cons.mp hc with h | h
      · subst h
        show sampleVal0 ∈ sampleEnv.activeVals
        decide
      · rcases List.mem_cons.mp h with h2 | h2
        · subst h2
          trivial
        · cases h2)
    (show ∀ e ∈ samplePV, e.1 ∈ sampleEnv.activeVals by decide)
    (by decide)

theorem pruningInvariant_witness :
    (∃ pa2 ck, alookup (kaRun sampleEnv (kaInit .initd) sampleCmds).assigned pa2
        = some ck ∧ sampleEnv.hash ck = 20) ∨
    (∃ t cas, alookup (kaRun sampleEnv (kaInit .initd) sampleCmds).toPrune t
        = some cas ∧ 20 ∈ cas) :=
  pruningInvariant sampleEnv .initd sampleCmds 20 10 (by decide)

theorem slashMeterBound_witness :
    (cisRun ⟨1, 20⟩ 4000 7 (kaInit .initd)
        (initSlashMeter ⟨1, 20⟩ 4000 0 7 sampleCIS)
        [.recv ⟨7, .downtime⟩, .replenish]).slashMeter
      ≤ allowance ⟨1, 20⟩ 4000 ∧
    allowance ⟨1, 20⟩ 4 = 1 ∧ allowance ⟨1, 20⟩ 4000 = 200 ∧
    allowance ⟨3, 10⟩ 4000 = 1200 :=
  have h := slashMeterBound ⟨1, 20⟩ 4000 7 (kaInit .initd) sampleCIS 0 7
    [.recv ⟨7, .downtime⟩, .replenish]
    (show ∀ w ∈ sampleCIS.vals, 0 ≤ w.power by decide)
  ⟨h.1, h.2.2.2.1, h.2.2.2.2.1, h.2.2.2.2.2⟩

theorem downtimeSlashHandling_witness :
    onRecvSlashPacket (kaInit .initd) sampleCIS ⟨7, .downtime⟩ =
      ({ sampleCIS with
          vals := jailVal sampleCIS.vals 7
          slashMeter := sampleCIS.slashMeter - 1000 }, .handled) ∧
    getJailed (onRecvSlashPacket (kaInit .initd) sampleCIS ⟨7, .downtime⟩).1.vals 7
      = true :=
  (downtimeSlashHandling (kaInit .initd) sampleCIS ⟨7, .downtime⟩ ⟨7, 1000, false⟩
    (by decide) rfl).1 (by decide)

theorem doubleSignHandling_witness :
    onRecvSlashPacket (kaInit .initd) sampleCIS ⟨7, .doubleSign⟩ =
      ({ sampleCIS with
          vals := jailVal sampleCIS.vals 7
          slashLog := 7 :: sampleCIS.slashLog }, .handled) ∧
    7 ∈ (onRecvSlashPacket (kaInit .initd) sampleCIS ⟨7, .doubleSign⟩).1.slashLog ∧
    getJailed (onRecvSlashPacket (kaInit .initd) sampleCIS ⟨7, .doubleSign⟩).1.vals 7
      = true ∧
    (onRecvSlashPacket (kaInit .initd) sampleCIS ⟨7, .doubleSign⟩).1.slashMeter
      = sampleCIS.slashMeter :=
  doubleSignHandling (kaInit .initd) sampleCIS ⟨7, .doubleSign⟩ ⟨7, 1000, false⟩
    (by decide) rfl

theorem replenishTicksToPositive_witness :
    0 < (iterReplenish ⟨1, 20⟩ 3000 deficitCIS800
      (((-deficitCIS800.slashMeter) / allowance ⟨1, 20⟩ 3000).toNat + 1)).slashMeter :=
  (replenishTicksToPositive ⟨1, 20⟩ 3000 deficitCIS800 (by decide)).1

theorem checkForReplenishmentSemantics_witness :
    checkForReplenishment ⟨1, 20⟩ 4000 10 7 sampleCIS = sampleCIS ∧
    ((checkForReplenishment ⟨1, 20⟩ 4000 30 7 sampleCIS).slashMeter
        = min (allowance ⟨1, 20⟩ 4000) (sampleCIS.slashMeter + allowance ⟨1, 20⟩ 4000) ∧
      (checkForReplenishment ⟨1, 20⟩ 4000 30 7 sampleCIS).candidate = 30 + 7 ∧
      (checkForReplenishment ⟨1, 20⟩ 4000 30 7 sampleCIS).vals = sampleCIS.vals ∧
      (checkForReplenishment ⟨1, 20⟩ 4000 30 7 sampleCIS).slashLog
        = sampleCIS.slashLog) :=
  ⟨(checkForReplenishmentSemantics ⟨1, 20⟩ 4000 10 7 sampleCIS).1 (by decide),
   (checkForReplenishmentSemantics ⟨1, 20⟩ 4000 30 7 sampleCIS).2 (by decide)⟩

theorem doubleSignBypass_witness :
    (recvSeq (kaInit .initd) sampleCIS
        [⟨7, .doubleSign⟩, ⟨7, .doubleSign⟩, ⟨9, .doubleSign⟩]).slashMeter
      = sampleCIS.slashMeter :=
  doubleSignBypass (kaInit .initd)
    [⟨7, .doubleSign⟩, ⟨7, .doubleSign⟩, ⟨9, .doubleSign⟩] sampleCIS
    (show ∀ p ∈ ([⟨7, .doubleSign⟩, ⟨7, .doubleSign⟩, ⟨9, .doubleSign⟩] :
        List SlashPacket), p.infraction = .doubleSign by decide)

theorem defaultKeyReassignmentRule_witness :
    assignConsumerKey sampleEnv (kaInit .initd) sampleVal0 sampleVal0.key 5
      = .error .defaultNotReassignable ∧
    (∃ st2, assignConsumerKey sampleEnv
        (applyAssign sampleEnv (kaInit .initd) sampleVal0 20 5) sampleVal0
        sampleVal0.key 9 = .ok st2) :=
  ⟨(defaultKeyReassignmentRule sampleEnv (kaInit .initd)
      (applyAssign sampleEnv (kaInit .initd) sampleVal0 20 5) sampleVal0 20 5 9).1
      (by decide) (by decide) (by decide) (by decide),
   (defaultKeyReassignmentRule sampleEnv (kaInit .initd)
      (applyAssign sampleEnv (kaInit .initd) sampleVal0 20 5) sampleVal0 20 5 9).2
      (fun a b h => h) (by decide) rfl (Or.inl (by decide)) (by decide)⟩

theorem pruneBucketFrame_witness :
    (consumeConsumerAddrsToPrune sampleKAPrune 5).1
      = getConsumerAddrsToPrune sampleKAPrune 5 ∧
    getConsumerAddrsToPrune (consumeConsumerAddrsToPrune sampleKAPrune 5).2 5 = [] ∧
    getConsumerAddrsToPrune (consumeConsumerAddrsToPrune sampleKAPrune 5).2 8
      = getConsumerAddrsToPrune sampleKAPrune 8 ∧
    getConsumerAddrsToPrune (deleteConsumerAddrsToPrune sampleKAPrune 5) 5 = [] ∧
    getConsumerAddrsToPrune (deleteConsumerAddrsToPrune sampleKAPrune 5) 8
      = getConsumerAddrsToPrune sampleKAPrune 8 ∧
    getConsumerAddrsToPrune (appendConsumerAddrsToPrune sampleKAPrune 5 103) 5
      = getConsumerAddrsToPrune sampleKAPrune 5 ++ [103] :=
  ⟨(pruneBucketFrame sampleKAPrune 5 103).1,
   (pruneBucketFrame sampleKAPrune 5 103).2.1,
   (pruneBucketFrame sampleKAPrune 5 103).2.2.1 8 (by decide),
   (pruneBucketFrame sampleKAPrune 5 103).2.2.2.1,
   (pruneBucketFrame sampleKAPrune 5 103).2.2.2.2.1 8 (by decide),
   (pruneBucketFrame sampleKAPrune 5 103).2.2.2.2.2⟩
